import Mathlib

/-!
Verification of the reference-counted model lease and lifecycle manager of
`run-claude` (`src/run_claude/state.py` and the `enter` / `leave` / `janitor`
command handlers of `src/run_claude/cli.py`).

Python dictionaries are modelled as association lists with unique keys
(`Dict`): `get?` returns the binding of a key, `insert` replaces an existing
binding in place or appends a new one (Python dict update semantics), and
`erase` removes every binding of the key (on a dict with unique keys this is
exactly Python's `del`).  Epoch timestamps (`time.time()` floats) are modelled
as integers: only their ordering and addition with constant delays matter to
the code under verification.  Calls to the remote model registry
(`proxy.delete_model`) and profile resolution (`profiles.load_profile`) are
external collaborators and are modelled as oracle functions passed in as
parameters.
-/

namespace RunClaude

/-- Association-list model of a Python `dict` with `String` keys. -/
abbrev Dict (α : Type) := List (String × α)

namespace Dict

/-- `d.get(k)` — the value bound to `k`, if any. -/
def get? {α : Type} (d : Dict α) (k : String) : Option α :=
  match d with
  | [] => none
  | (k', v) :: rest => if k' = k then some v else get? rest k

/-- `d.get(k, fallback)`. -/
def getD {α : Type} (d : Dict α) (k : String) (fallback : α) : α :=
  (d.get? k).getD fallback

/-- `k in d`. -/
def contains {α : Type} (d : Dict α) (k : String) : Bool :=
  (d.get? k).isSome

/-- `d[k] = v`: replace the binding of `k` in place, or append a new one. -/
def insert {α : Type} (d : Dict α) (k : String) (v : α) : Dict α :=
  match d with
  | [] => [(k, v)]
  | (k', v') :: rest => if k' = k then (k, v) :: rest else (k', v') :: insert rest k v

/-- `del d[k]`: remove the binding of `k` (all of them; a Python dict has at
most one). -/
def erase {α : Type} (d : Dict α) (k : String) : Dict α :=
  match d with
  | [] => []
  | (k', v') :: rest => if k' = k then erase rest k else (k', v') :: erase rest k

/-- The keys of the dict are pairwise distinct (always true of a Python dict). -/
def WF {α : Type} (d : Dict α) : Prop := (d.map Prod.fst).Nodup

instance {α : Type} (d : Dict α) : Decidable (WF d) := by
  unfold WF; infer_instance

end Dict

/-- `state.TokenInfo`: information about an active token. -/
structure TokenInfo where
  profile : String
  last_seen : Int
  directory : String
deriving DecidableEq, Repr

/-- `state.State`: the agent shim state (the persisted aggregate root). -/
structure State where
  proxy_pid : Option Int := none
  active_tokens : Dict TokenInfo := []
  model_refcounts : Dict Int := []
  model_leases : Dict Int := []
  last_janitor_run : Int := 0
deriving DecidableEq, Repr

/-- The empty state (`State()` with all defaults). -/
def State.empty : State := {}

/-- One iteration of the loop body of `state.increment_models`. -/
def incStep (s : State) (model : String) : State :=
  let s1 := { s with
    model_refcounts := s.model_refcounts.insert model (s.model_refcounts.getD model 0 + 1) }
  -- Clear any pending lease when model is activated
  if s1.model_leases.contains model then
    { s1 with model_leases := s1.model_leases.erase model }
  else s1

/-- `state.increment_models(state, models)`. -/
def increment_models (s : State) (models : List String) : State :=
  models.foldl incStep s

/-- One iteration of the loop body of `state.decrement_models`, with the
`delete_after` timestamp computed once before the loop. -/
def decStep (delete_after : Int) (s : State) (model : String) : State :=
  let count0 := s.model_refcounts.getD model 0
  let count := if count0 > 0 then count0 - 1 else count0
  let s1 :=
    if count0 > 0 then
      { s with model_refcounts := s.model_refcounts.insert model count }
    else s
  if count = 0 then
    -- Set lease for delayed deletion
    let s2 := { s1 with model_leases := s1.model_leases.insert model delete_after }
    -- Clean up zero refcount
    if s2.model_refcounts.contains model then
      { s2 with model_refcounts := s2.model_refcounts.erase model }
    else s2
  else s1

/-- `state.decrement_models(state, models, lease_delay)`; `now` is the value
of `time.time()` sampled once at the top of the call. -/
def decrement_models (s : State) (models : List String) (now lease_delay : Int) : State :=
  let delete_after := now + lease_delay
  models.foldl (decStep delete_after) s

/-- `state.get_expired_leases(state)`; `now` is `time.time()`. -/
def get_expired_leases (s : State) (now : Int) : List String :=
  (s.model_leases.filter
    (fun p => decide (now ≥ p.2) && decide (s.model_refcounts.getD p.1 0 = 0))).map Prod.fst

/-- `state.clear_lease(state, model)`. -/
def clear_lease (s : State) (model : String) : State :=
  if s.model_leases.contains model then
    { s with model_leases := s.model_leases.erase model }
  else s

/-- `state.add_token(state, token, profile, directory)`; `now` is `time.time()`. -/
def add_token (s : State) (token profile directory : String) (now : Int) : State :=
  { s with active_tokens :=
      s.active_tokens.insert token ⟨profile, now, directory⟩ }

/-- `state.remove_token(state, token)` (the returned `TokenInfo` is
`get_token` of the pre-state; here we keep the updated state). -/
def remove_token (s : State) (token : String) : State :=
  { s with active_tokens := s.active_tokens.erase token }

/-- `state.get_token(state, token)`. -/
def get_token (s : State) (token : String) : Option TokenInfo :=
  s.active_tokens.get? token

/-! ## CLI command handlers (`src/run_claude/cli.py`)

The handlers are modelled on the persisted state they load, with the external
collaborators abstracted: `resolve` stands for `profiles.load_profile`
(returning the profile's model-name list, `Profile.get_model_names`), and
`deleteOk` stands for `proxy.delete_model` (whether the registry delete call
for a given model succeeds).  Proxy start / `ensure_models` calls do not read
or write the persisted state and are elided.  The `saved` flag records whether
the handler reached its `state.save_state` call. -/

/-- A resolved profile, reduced to what the state machine consumes:
`Profile.get_model_names()`. -/
structure Profile where
  model_names : List String
deriving DecidableEq, Repr

/-- Outcome of `cmd_enter`. -/
structure EnterResult where
  exitCode : Int
  saved : Bool
  state : State
deriving DecidableEq, Repr

/-- `cli.cmd_enter`: resolve the profile; on failure exit 1 touching nothing;
on success record the token (last-write-wins) and increment the profile's
models. -/
def cmd_enter (resolve : String → Option Profile) (s : State)
    (token profile_name directory : String) (now : Int) : EnterResult :=
  match resolve profile_name with
  | none => ⟨1, false, s⟩
  | some profile =>
    let st := add_token s token profile_name directory now
    let st := increment_models st profile.model_names
    ⟨0, true, st⟩

/-- Outcome of `cmd_leave`. -/
structure LeaveResult where
  exitCode : Int
  saved : Bool
  state : State
deriving DecidableEq, Repr

/-- `cli.cmd_leave`: absent token is a successful no-op; otherwise decrement
the recorded profile's models when the profile still resolves, and remove the
token. -/
def cmd_leave (resolve : String → Option Profile) (s : State)
    (token : String) (now lease_delay : Int) : LeaveResult :=
  match get_token s token with
  | none => ⟨0, false, s⟩
  | some info =>
    let st :=
      match resolve info.profile with
      | some profile => decrement_models s profile.model_names now lease_delay
      | none => s
    ⟨0, true, remove_token st token⟩

/-- Outcome of `cmd_janitor`: the resulting state, the models whose deletion
succeeded (printed as `Deleted model: ...`), the exit code, and whether
`save_state` ran. -/
structure JanitorResult where
  state : State
  deleted : List String
  exitCode : Int
  saved : Bool
deriving DecidableEq, Repr

/-- The deletion loop of `cmd_janitor`: try `proxy.delete_model` on each
expired model; on success clear its lease and record it, on failure keep the
lease and continue. -/
def janitorLoop (deleteOk : String → Bool) (s : State) :
    List String → State × List String
  | [] => (s, [])
  | model :: rest =>
    if deleteOk model then
      let r := janitorLoop deleteOk (clear_lease s model) rest
      (r.1, model :: r.2)
    else janitorLoop deleteOk s rest

/-- `cli.cmd_janitor`: rate-limited sweep.  `now` is `time.time()` sampled
during the call. -/
def cmd_janitor (s : State) (now : Int) (force : Bool)
    (deleteOk : String → Bool) : JanitorResult :=
  -- Rate limit: only run once per minute unless forced
  if ¬force ∧ now - s.last_janitor_run < 60 then
    ⟨s, [], 0, false⟩
  else
    let st := { s with last_janitor_run := now }
    let expired := get_expired_leases st now
    if expired = [] then ⟨st, [], 0, true⟩
    else
      let r := janitorLoop deleteOk st expired
      ⟨r.1, r.2, 0, true⟩

/-! ## Spec-side per-model reference machine

For claim C1 the spec's characterisation of one model's refcount/lease history
is rendered as a tiny machine processing that model's events in order.  These
definitions follow the SPEC's words ("a decrement that brought (or left) the
count at zero has occurred and has not yet been cleared by a later increment
or by `clear_lease`"), to be compared with the state produced by the code. -/

/-- A call of the reference-count engine or `clear_lease`. -/
inductive Op where
  | inc (models : List String)
  | dec (models : List String) (now lease_delay : Int)
  | clear (model : String)

/-- Run a sequence of calls from the empty state (the code side). -/
def applyOp (s : State) : Op → State
  | .inc ms => increment_models s ms
  | .dec ms now d => decrement_models s ms now d
  | .clear m => clear_lease s m

/-- State after a sequence of calls starting from the empty state. -/
def runOps (ops : List Op) : State :=
  ops.foldl applyOp State.empty

/-- Spec-side view of a single model: its count and whether a
decrement-to-zero is pending (not yet cleared). -/
structure ModelView where
  count : Nat
  pending : Bool
deriving DecidableEq, Repr

/-- One event as seen by a single model. -/
inductive Ev where
  | inc
  | dec
  | clear
deriving DecidableEq, Repr

/-- Spec-side transition: an increment raises the count and cancels any
pending deletion; a decrement lowers the count (floored at zero) and marks a
pending deletion exactly when it brought or left the count at zero; a clear
cancels the pending mark. -/
def evStep (v : ModelView) : Ev → ModelView
  | .inc => ⟨v.count + 1, false⟩
  | .dec =>
    let c := v.count - 1
    ⟨c, if c = 0 then true else v.pending⟩
  | .clear => ⟨v.count, false⟩

/-- The events one call contributes for model `m` (one per occurrence of `m`
in the call's model list). -/
def evsFor (m : String) : Op → List Ev
  | .inc ms => (ms.filter (· = m)).map (fun _ => Ev.inc)
  | .dec ms _ _ => (ms.filter (· = m)).map (fun _ => Ev.dec)
  | .clear x => if x = m then [Ev.clear] else []

/-- Spec-side view of model `m` after one call. -/
def viewStep (m : String) (v : ModelView) (op : Op) : ModelView :=
  (evsFor m op).foldl evStep v

/-- Spec-side view of model `m` after a sequence of calls. -/
def viewOps (ops : List Op) (m : String) : ModelView :=
  ops.foldl (viewStep m) ⟨0, false⟩

/-! ## Simulation between the code state and the spec-side model view -/

/-- The code state agrees with the spec-side view of model `m`: the refcount
dict has an entry for `m` exactly when the view's count is positive (and then
with that value), and a lease entry exists exactly when the view marks a
pending deletion. -/
def Rel (s : State) (m : String) (v : ModelView) : Prop :=
  s.model_refcounts.get? m = (if v.count = 0 then none else some (v.count : Int)) ∧
  (s.model_leases.get? m).isSome = v.pending

/-! ## Dictionary lemmas -/

namespace Dict

theorem get?_eq_none_iff {α : Type} (d : Dict α) (k : String) :
    d.get? k = none ↔ k ∉ d.map Prod.fst := by
  induction d with
  | nil => simp [get?]
  | cons p rest ih =>
    obtain ⟨k', v'⟩ := p
    by_cases hk : k' = k
    · simp [get?, hk]
    · have hk' : ¬ k = k' := fun h => hk h.symm
      simp [get?, hk, ih, hk']

theorem get?_insert {α : Type} (d : Dict α) (k m : String) (v : α) :
    (d.insert k v).get? m = if k = m then some v else d.get? m := by
  induction d with
  | nil => simp [insert, get?]
  | cons p rest ih =>
    obtain ⟨k', v'⟩ := p
    by_cases hk : k' = k
    · subst hk
      by_cases hm : k' = m <;> simp [insert, get?, hm]
    · by_cases hm : k' = m
      · have hkm : ¬ k = m := by rw [← hm]; exact fun h => hk h.symm
        have hmk : ¬ m = k := fun h => hkm h.symm
        simp [insert, get?, hk, hm, hkm, hmk]
      · simp [insert, get?, hk, hm, ih]

theorem get?_insert_self {α : Type} (d : Dict α) (k : String) (v : α) :
    (d.insert k v).get? k = some v := by
  simp [get?_insert]

theorem get?_insert_ne {α : Type} (d : Dict α) (k m : String) (v : α) (h : k ≠ m) :
    (d.insert k v).get? m = d.get? m := by
  simp [get?_insert, h]

theorem get?_erase {α : Type} (d : Dict α) (k m : String) :
    (d.erase k).get? m = if k = m then none else d.get? m := by
  induction d with
  | nil => simp [erase, get?]
  | cons p rest ih =>
    obtain ⟨k', v'⟩ := p
    by_cases hk : k' = k
    · subst hk
      by_cases hm : k' = m
      · subst hm; simp [erase, get?, ih]
      · simp [erase, get?, hm, ih]
    · by_cases hm : k' = m
      · have hkm : ¬ k = m := by rw [← hm]; exact fun h => hk h.symm
        have hmk : ¬ m = k := fun h => hkm h.symm
        simp [erase, get?, hk, hm, hkm, hmk]
      · simp [erase, get?, hk, hm, ih]

theorem get?_erase_self {α : Type} (d : Dict α) (k : String) :
    (d.erase k).get? k = none := by
  simp [get?_erase]

theorem get?_erase_ne {α : Type} (d : Dict α) (k m : String) (h : k ≠ m) :
    (d.erase k).get? m = d.get? m := by
  simp [get?_erase, h]

theorem keys_insert {α : Type} (d : Dict α) (k : String) (v : α) :
    (d.insert k v).map Prod.fst =
      if (d.get? k).isSome then d.map Prod.fst else d.map Prod.fst ++ [k] := by
  induction d with
  | nil => simp [insert, get?]
  | cons p rest ih =>
    obtain ⟨k', v'⟩ := p
    by_cases hk : k' = k
    · subst hk; simp [insert, get?]
    · simp [insert, get?, hk, ih]
      split <;> simp

theorem WF_insert {α : Type} {d : Dict α} (h : WF d) (k : String) (v : α) :
    WF (d.insert k v) := by
  unfold WF at h ⊢
  rw [keys_insert]
  split
  · exact h
  · rename_i hnone
    have hk : k ∉ d.map Prod.fst := by
      rw [← get?_eq_none_iff]
      rcases hget : d.get? k with _ | w
      · rfl
      · rw [hget] at hnone; simp at hnone
    simp [List.nodup_append, h, hk]

theorem erase_insert {α : Type} (d : Dict α) (k : String) (v : α) :
    (d.insert k v).erase k = d.erase k := by
  induction d with
  | nil => simp [insert, erase]
  | cons p rest ih =>
    obtain ⟨k', v'⟩ := p
    by_cases hk : k' = k
    · simp [insert, erase, hk]
    · simp [insert, erase, hk, ih]

theorem length_insert_of_mem {α : Type} (d : Dict α) (k : String) (v : α)
    (h : (d.get? k).isSome) : (d.insert k v).length = d.length := by
  induction d with
  | nil => simp [get?] at h
  | cons p rest ih =>
    obtain ⟨k', v'⟩ := p
    by_cases hk : k' = k
    · subst hk; simp [insert]
    · simp [get?, hk] at h
      simp [insert, hk, ih h]

end Dict

/-! ## Step lemmas for the reference-count engine -/

@[simp] theorem incStep_proxy_pid (s : State) (x : String) :
    (incStep s x).proxy_pid = s.proxy_pid := by
  simp only [incStep]; split <;> rfl

@[simp] theorem incStep_active_tokens (s : State) (x : String) :
    (incStep s x).active_tokens = s.active_tokens := by
  simp only [incStep]; split <;> rfl

@[simp] theorem incStep_last_janitor_run (s : State) (x : String) :
    (incStep s x).last_janitor_run = s.last_janitor_run := by
  simp only [incStep]; split <;> rfl

theorem incStep_refcounts_ne (s : State) (x m : String) (h : x ≠ m) :
    (incStep s x).model_refcounts.get? m = s.model_refcounts.get? m := by
  simp only [incStep]
  split <;> simp [Dict.get?_insert_ne _ _ _ _ h]

theorem incStep_leases_ne (s : State) (x m : String) (h : x ≠ m) :
    (incStep s x).model_leases.get? m = s.model_leases.get? m := by
  simp only [incStep]
  split <;> simp [Dict.get?_erase_ne _ _ _ h]

theorem incStep_refcounts_self (s : State) (x : String) :
    (incStep s x).model_refcounts.get? x =
      some (s.model_refcounts.getD x 0 + 1) := by
  simp only [incStep]
  split <;> simp [Dict.get?_insert_self]

theorem incStep_leases_self (s : State) (x : String) :
    (incStep s x).model_leases.get? x = none := by
  simp only [incStep]
  rcases h : s.model_leases.contains x with _ | _
  · simp only [h, Bool.false_eq_true, if_false]
    unfold Dict.contains at h
    rcases hg : s.model_leases.get? x with _ | v
    · rfl
    · rw [hg] at h; simp at h
  · simp only [h, if_true]
    simp [Dict.get?_erase_self]

@[simp] theorem decStep_proxy_pid (d : Int) (s : State) (x : String) :
    (decStep d s x).proxy_pid = s.proxy_pid := by
  simp only [decStep]; split <;> split <;> (try split) <;> rfl

@[simp] theorem decStep_active_tokens (d : Int) (s : State) (x : String) :
    (decStep d s x).active_tokens = s.active_tokens := by
  simp only [decStep]; split <;> split <;> (try split) <;> rfl

@[simp] theorem decStep_last_janitor_run (d : Int) (s : State) (x : String) :
    (decStep d s x).last_janitor_run = s.last_janitor_run := by
  simp only [decStep]; split <;> split <;> (try split) <;> rfl

theorem decStep_refcounts_ne (d : Int) (s : State) (x m : String) (h : x ≠ m) :
    (decStep d s x).model_refcounts.get? m = s.model_refcounts.get? m := by
  simp only [decStep]
  split <;> split <;> (try split) <;>
    simp [Dict.get?_erase_ne _ _ _ h, Dict.get?_insert_ne _ _ _ _ h]

theorem decStep_leases_ne (d : Int) (s : State) (x m : String) (h : x ≠ m) :
    (decStep d s x).model_leases.get? m = s.model_leases.get? m := by
  simp only [decStep]
  split <;> split <;> (try split) <;>
    simp [Dict.get?_insert_ne _ _ _ _ h]

theorem decStep_leases_cases (d : Int) (s : State) (x m : String) :
    (decStep d s x).model_leases.get? m = s.model_leases.get? m ∨
      (decStep d s x).model_leases.get? m = some d := by
  by_cases hx : x = m
  · subst hx
    simp only [decStep]
    split <;> split <;> (try split) <;>
      simp [Dict.get?_insert_self]
  · left; exact decStep_leases_ne d s x m hx

@[simp] theorem clear_lease_proxy_pid (s : State) (x : String) :
    (clear_lease s x).proxy_pid = s.proxy_pid := by
  simp only [clear_lease]; split <;> rfl

@[simp] theorem clear_lease_active_tokens (s : State) (x : String) :
    (clear_lease s x).active_tokens = s.active_tokens := by
  simp only [clear_lease]; split <;> rfl

@[simp] theorem clear_lease_last_janitor_run (s : State) (x : String) :
    (clear_lease s x).last_janitor_run = s.last_janitor_run := by
  simp only [clear_lease]; split <;> rfl

@[simp] theorem clear_lease_refcounts (s : State) (x : String) :
    (clear_lease s x).model_refcounts = s.model_refcounts := by
  simp only [clear_lease]; split <;> rfl

theorem clear_lease_leases_ne (s : State) (x m : String) (h : x ≠ m) :
    (clear_lease s x).model_leases.get? m = s.model_leases.get? m := by
  simp only [clear_lease]
  split <;> simp [Dict.get?_erase_ne _ _ _ h]

theorem clear_lease_leases_self (s : State) (x : String) :
    (clear_lease s x).model_leases.get? x = none := by
  simp only [clear_lease]
  rcases h : s.model_leases.contains x with _ | _
  · simp only [h, Bool.false_eq_true, if_false]
    unfold Dict.contains at h
    rcases hg : s.model_leases.get? x with _ | v
    · rfl
    · rw [hg] at h; simp at h
  · simp only [h, if_true]
    simp [Dict.get?_erase_self]

/-- `decrement_models` loop body on a model with no refcount entry: the count
is left untouched (no entry created, nothing goes negative) but a lease is
set. -/
theorem decStep_absent {s : State} {x : String} (d : Int)
    (h : s.model_refcounts.get? x = none) :
    decStep d s x = { s with model_leases := s.model_leases.insert x d } := by
  have hD : s.model_refcounts.getD x 0 = 0 := by
    unfold Dict.getD; rw [h]; rfl
  simp only [decStep, hD]
  norm_num [Dict.contains, h]

/-- `decrement_models` loop body on a model with refcount 1: the entry is
removed (not kept at zero) and a lease is set. -/
theorem decStep_one {s : State} {x : String} (d : Int)
    (h : s.model_refcounts.get? x = some 1) :
    decStep d s x = { s with
      model_refcounts := s.model_refcounts.erase x,
      model_leases := s.model_leases.insert x d } := by
  have hD : s.model_refcounts.getD x 0 = 1 := by
    unfold Dict.getD; rw [h]; rfl
  simp only [decStep, hD]
  norm_num [Dict.contains, Dict.get?_insert_self, Dict.erase_insert]

/-- `decrement_models` loop body on a model with refcount above 1: pure
decrement, no lease activity. -/
theorem decStep_many {s : State} {x : String} (d c : Int)
    (h : s.model_refcounts.getD x 0 = c) (hc : 1 < c) :
    decStep d s x = { s with
      model_refcounts := s.model_refcounts.insert x (c - 1) } := by
  have h0 : c > 0 := by omega
  have h1 : ¬ (c - 1 = 0) := by omega
  simp only [decStep, h]
  simp [h0, h1]

theorem Rel_empty (m : String) : Rel State.empty m ⟨0, false⟩ := by
  constructor <;> rfl

theorem Rel_incStep {s : State} {m : String} {v : ModelView}
    (h : Rel s m v) (x : String) :
    Rel (incStep s x) m (if x = m then evStep v .inc else v) := by
  by_cases hx : x = m
  · subst hx
    have hD : s.model_refcounts.getD x 0 = (v.count : Int) := by
      unfold Dict.getD
      rw [h.1]
      by_cases hc : v.count = 0 <;> simp [hc]
    constructor
    · rw [incStep_refcounts_self, hD]
      simp [evStep]
    · rw [incStep_leases_self]
      simp [evStep]
  · simp only [hx, if_false]
    exact ⟨by rw [incStep_refcounts_ne s x m hx]; exact h.1,
           by rw [incStep_leases_ne s x m hx]; exact h.2⟩

theorem Rel_decStep {s : State} {m : String} {v : ModelView}
    (h : Rel s m v) (d : Int) (x : String) :
    Rel (decStep d s x) m (if x = m then evStep v .dec else v) := by
  by_cases hx : x = m
  · subst hx
    obtain ⟨n, l⟩ := v
    obtain ⟨h1, h2⟩ := h
    match n with
    | 0 =>
      have habs : s.model_refcounts.get? x = none := by simpa using h1
      rw [decStep_absent d habs]
      refine ⟨?_, ?_⟩
      · simpa [evStep] using habs
      · simp [evStep, Dict.get?_insert_self]
    | 1 =>
      have hone : s.model_refcounts.get? x = some 1 := by simpa using h1
      rw [decStep_one d hone]
      refine ⟨?_, ?_⟩
      · simp [evStep, Dict.get?_erase_self]
      · simp [evStep, Dict.get?_insert_self]
    | (k+2) =>
      have hD : s.model_refcounts.getD x 0 = ((k : Int) + 2) := by
        unfold Dict.getD
        rw [h1]
        push_cast
        simp
      rw [decStep_many d _ hD (by omega)]
      refine ⟨?_, ?_⟩
      · rw [Dict.get?_insert_self]
        simp only [evStep]
        norm_num
        ring
      · simpa [evStep] using h2
  · simp only [hx, if_false]
    exact ⟨by rw [decStep_refcounts_ne d s x m hx]; exact h.1,
           by rw [decStep_leases_ne d s x m hx]; exact h.2⟩

theorem Rel_clear_lease {s : State} {m : String} {v : ModelView}
    (h : Rel s m v) (x : String) :
    Rel (clear_lease s x) m (if x = m then evStep v .clear else v) := by
  by_cases hx : x = m
  · subst hx
    refine ⟨?_, ?_⟩
    · rw [clear_lease_refcounts]
      simpa [evStep] using h.1
    · rw [clear_lease_leases_self]
      simp [evStep]
  · simp only [hx, if_false]
    exact ⟨by rw [clear_lease_refcounts]; exact h.1,
           by rw [clear_lease_leases_ne s x m hx]; exact h.2⟩

theorem Rel_increment_models {m : String} (ms : List String) :
    ∀ {s : State} {v : ModelView}, Rel s m v →
      Rel (increment_models s ms) m ((evsFor m (.inc ms)).foldl evStep v) := by
  induction ms with
  | nil => intro s v h; simpa [increment_models, evsFor] using h
  | cons x rest ih =>
    intro s v h
    have hstep := Rel_incStep h x
    have hfold : increment_models s (x :: rest) = increment_models (incStep s x) rest := rfl
    rw [hfold]
    by_cases hx : x = m
    · simp only [hx, if_true] at hstep
      simpa [evsFor, List.filter_cons, hx] using ih hstep
    · simp only [hx, if_false] at hstep
      simpa [evsFor, List.filter_cons, hx] using ih hstep

theorem Rel_decrement_models {m : String} (ms : List String) (now delay : Int) :
    ∀ {s : State} {v : ModelView}, Rel s m v →
      Rel (decrement_models s ms now delay) m
        ((evsFor m (.dec ms now delay)).foldl evStep v) := by
  induction ms with
  | nil => intro s v h; simpa [decrement_models, evsFor] using h
  | cons x rest ih =>
    intro s v h
    have hstep := Rel_decStep h (now + delay) x
    have hfold : decrement_models s (x :: rest) now delay =
        decrement_models (decStep (now + delay) s x) rest now delay := rfl
    rw [hfold]
    by_cases hx : x = m
    · simp only [hx, if_true] at hstep
      simpa [evsFor, List.filter_cons, hx] using ih hstep
    · simp only [hx, if_false] at hstep
      simpa [evsFor, List.filter_cons, hx] using ih hstep

theorem Rel_applyOp {s : State} {m : String} {v : ModelView}
    (h : Rel s m v) (op : Op) :
    Rel (applyOp s op) m (viewStep m v op) := by
  cases op with
  | inc ms => exact Rel_increment_models ms h
  | dec ms now dl => exact Rel_decrement_models ms now dl h
  | clear x =>
    have hc := Rel_clear_lease h x
    by_cases hx : x = m <;>
      simp only [hx, if_true, if_false] at hc <;>
      simpa [viewStep, evsFor, hx] using hc

theorem Rel_runOps (ops : List Op) (m : String) :
    Rel (runOps ops) m (viewOps ops m) := by
  suffices h : ∀ (s : State) (v : ModelView), Rel s m v →
      Rel (ops.foldl applyOp s) m (ops.foldl (viewStep m) v) from
    h State.empty ⟨0, false⟩ (Rel_empty m)
  induction ops with
  | nil => intro s v h; exact h
  | cons op rest ih =>
    intro s v h
    exact ih _ _ (Rel_applyOp h op)

/-- Machine invariant: a pending deletion mark implies the spec-side count is
zero. -/
theorem evStep_pending (v : ModelView) (e : Ev)
    (h : v.pending = true → v.count = 0) :
    (evStep v e).pending = true → (evStep v e).count = 0 := by
  cases e with
  | inc => simp [evStep]
  | dec =>
    simp only [evStep]
    by_cases hc : v.count - 1 = 0
    · simp [hc]
    · simp only [hc, if_false]
      intro hl
      have := h hl
      omega
  | clear => simp [evStep]

theorem foldl_evStep_pending (es : List Ev) :
    ∀ v : ModelView, (v.pending = true → v.count = 0) →
      ((es.foldl evStep v).pending = true → (es.foldl evStep v).count = 0) := by
  induction es with
  | nil => intro v h; exact h
  | cons e rest ih => intro v h; exact ih _ (evStep_pending v e h)

theorem viewOps_pending (ops : List Op) (m : String) :
    (viewOps ops m).pending = true → (viewOps ops m).count = 0 := by
  suffices h : ∀ v : ModelView, (v.pending = true → v.count = 0) →
      ((ops.foldl (viewStep m) v).pending = true →
        (ops.foldl (viewStep m) v).count = 0) from
    h ⟨0, false⟩ (by simp)
  induction ops with
  | nil => intro v h; exact h
  | cons op rest ih =>
    intro v h
    exact ih _ (foldl_evStep_pending _ v h)

/-! ## Frame lemmas for whole calls -/

theorem increment_models_active_tokens (ms : List String) :
    ∀ s : State, (increment_models s ms).active_tokens = s.active_tokens := by
  induction ms with
  | nil => intro s; rfl
  | cons x rest ih =>
    intro s
    have : increment_models s (x :: rest) = increment_models (incStep s x) rest := rfl
    rw [this, ih, incStep_active_tokens]

theorem increment_models_proxy_pid (ms : List String) :
    ∀ s : State, (increment_models s ms).proxy_pid = s.proxy_pid := by
  induction ms with
  | nil => intro s; rfl
  | cons x rest ih =>
    intro s
    have : increment_models s (x :: rest) = increment_models (incStep s x) rest := rfl
    rw [this, ih, incStep_proxy_pid]

theorem increment_models_last_janitor_run (ms : List String) :
    ∀ s : State, (increment_models s ms).last_janitor_run = s.last_janitor_run := by
  induction ms with
  | nil => intro s; rfl
  | cons x rest ih =>
    intro s
    have : increment_models s (x :: rest) = increment_models (incStep s x) rest := rfl
    rw [this, ih, incStep_last_janitor_run]

theorem increment_models_refcounts_not_mem (ms : List String) :
    ∀ (s : State) (m : String), m ∉ ms →
      (increment_models s ms).model_refcounts.get? m = s.model_refcounts.get? m := by
  induction ms with
  | nil => intro s m _; rfl
  | cons x rest ih =>
    intro s m hm
    have hx : x ≠ m := fun h => hm (h ▸ List.mem_cons_self x rest)
    have hrest : m ∉ rest := fun h => hm (List.mem_cons_of_mem x h)
    have : increment_models s (x :: rest) = increment_models (incStep s x) rest := rfl
    rw [this, ih _ _ hrest, incStep_refcounts_ne s x m hx]

theorem increment_models_leases_not_mem (ms : List String) :
    ∀ (s : State) (m : String), m ∉ ms →
      (increment_models s ms).model_leases.get? m = s.model_leases.get? m := by
  induction ms with
  | nil => intro s m _; rfl
  | cons x rest ih =>
    intro s m hm
    have hx : x ≠ m := fun h => hm (h ▸ List.mem_cons_self x rest)
    have hrest : m ∉ rest := fun h => hm (List.mem_cons_of_mem x h)
    have : increment_models s (x :: rest) = increment_models (incStep s x) rest := rfl
    rw [this, ih _ _ hrest, incStep_leases_ne s x m hx]

theorem decrement_models_active_tokens (ms : List String) (now delay : Int) :
    ∀ s : State, (decrement_models s ms now delay).active_tokens = s.active_tokens := by
  induction ms with
  | nil => intro s; rfl
  | cons x rest ih =>
    intro s
    have : decrement_models s (x :: rest) now delay =
        decrement_models (decStep (now + delay) s x) rest now delay := rfl
    rw [this, ih, decStep_active_tokens]

theorem decrement_models_proxy_pid (ms : List String) (now delay : Int) :
    ∀ s : State, (decrement_models s ms now delay).proxy_pid = s.proxy_pid := by
  induction ms with
  | nil => intro s; rfl
  | cons x rest ih =>
    intro s
    have : decrement_models s (x :: rest) now delay =
        decrement_models (decStep (now + delay) s x) rest now delay := rfl
    rw [this, ih, decStep_proxy_pid]

theorem decrement_models_last_janitor_run (ms : List String) (now delay : Int) :
    ∀ s : State, (decrement_models s ms now delay).last_janitor_run = s.last_janitor_run := by
  induction ms with
  | nil => intro s; rfl
  | cons x rest ih =>
    intro s
    have : decrement_models s (x :: rest) now delay =
        decrement_models (decStep (now + delay) s x) rest now delay := rfl
    rw [this, ih, decStep_last_janitor_run]

theorem decrement_models_refcounts_not_mem (ms : List String) (now delay : Int) :
    ∀ (s : State) (m : String), m ∉ ms →
      (decrement_models s ms now delay).model_refcounts.get? m =
        s.model_refcounts.get? m := by
  induction ms with
  | nil => intro s m _; rfl
  | cons x rest ih =>
    intro s m hm
    have hx : x ≠ m := fun h => hm (h ▸ List.mem_cons_self x rest)
    have hrest : m ∉ rest := fun h => hm (List.mem_cons_of_mem x h)
    have : decrement_models s (x :: rest) now delay =
        decrement_models (decStep (now + delay) s x) rest now delay := rfl
    rw [this, ih _ _ hrest, decStep_refcounts_ne _ s x m hx]

theorem decrement_models_leases_not_mem (ms : List String) (now delay : Int) :
    ∀ (s : State) (m : String), m ∉ ms →
      (decrement_models s ms now delay).model_leases.get? m =
        s.model_leases.get? m := by
  induction ms with
  | nil => intro s m _; rfl
  | cons x rest ih =>
    intro s m hm
    have hx : x ≠ m := fun h => hm (h ▸ List.mem_cons_self x rest)
    have hrest : m ∉ rest := fun h => hm (List.mem_cons_of_mem x h)
    have : decrement_models s (x :: rest) now delay =
        decrement_models (decStep (now + delay) s x) rest now delay := rfl
    rw [this, ih _ _ hrest, decStep_leases_ne _ s x m hx]

/-- Any lease entry a `decrement_models` call changes is set to the single
`delete_after` timestamp computed once before its loop. -/
theorem decrement_models_leases_cases (ms : List String) (now delay : Int) :
    ∀ (s : State) (m : String),
      (decrement_models s ms now delay).model_leases.get? m =
          s.model_leases.get? m ∨
        (decrement_models s ms now delay).model_leases.get? m =
          some (now + delay) := by
  induction ms with
  | nil => intro s m; left; rfl
  | cons x rest ih =>
    intro s m
    have hfold : decrement_models s (x :: rest) now delay =
        decrement_models (decStep (now + delay) s x) rest now delay := rfl
    rw [hfold]
    rcases ih (decStep (now + delay) s x) m with h | h
    · rw [h]
      exact decStep_leases_cases (now + delay) s x m
    · right; exact h

/-! ## Membership lemmas for the janitor -/

theorem Dict.get?_isSome_of_mem {α : Type} {d : Dict α} {k : String} {v : α}
    (h : (k, v) ∈ d) : (d.get? k).isSome := by
  induction d with
  | nil => cases h
  | cons p rest ih =>
    obtain ⟨k', v'⟩ := p
    rcases List.mem_cons.mp h with h | h
    · obtain ⟨hk, _⟩ := Prod.mk.injEq .. ▸ h
      injection h with hk _
      simp [Dict.get?, hk]
    · by_cases hk : k' = k
      · simp [Dict.get?, hk]
      · simpa [Dict.get?, hk] using ih h

theorem Dict.mem_of_get?_eq_some {α : Type} {d : Dict α} {k : String} {v : α}
    (h : d.get? k = some v) : (k, v) ∈ d := by
  induction d with
  | nil => simp [Dict.get?] at h
  | cons p rest ih =>
    obtain ⟨k', v'⟩ := p
    by_cases hk : k' = k
    · simp [Dict.get?, hk] at h
      simp [hk, h]
    · simp [Dict.get?, hk] at h
      exact List.mem_cons_of_mem _ (ih h)

theorem Dict.get?_eq_some_of_mem_of_WF {α : Type} {d : Dict α} (hwf : Dict.WF d)
    {k : String} {v : α} (h : (k, v) ∈ d) : d.get? k = some v := by
  induction d with
  | nil => cases h
  | cons p rest ih =>
    obtain ⟨k', v'⟩ := p
    unfold Dict.WF at hwf
    simp only [List.map_cons, List.nodup_cons] at hwf
    rcases List.mem_cons.mp h with h | h
    · injection h with hk hv
      simp [Dict.get?, hk, hv]
    · by_cases hk : k' = k
      · exfalso
        apply hwf.1
        rw [hk]
        exact List.mem_map.mpr ⟨(k, v), h, rfl⟩
      · simpa [Dict.get?, hk] using ih hwf.2 h

/-- Membership in the sweep's selection, in terms of the raw lease entries. -/
theorem mem_get_expired_leases {s : State} {now : Int} {m : String} :
    m ∈ get_expired_leases s now ↔
      ∃ t, (m, t) ∈ s.model_leases ∧ now ≥ t ∧
        s.model_refcounts.getD m 0 = 0 := by
  unfold get_expired_leases
  constructor
  · intro h
    obtain ⟨⟨a, b⟩, hmem, hfst⟩ := List.mem_map.mp h
    obtain ⟨hin, hpred⟩ := List.mem_filter.mp hmem
    simp only [Bool.and_eq_true, decide_eq_true_eq] at hpred
    subst hfst
    exact ⟨b, hin, hpred.1, hpred.2⟩
  · rintro ⟨t, hin, hge, hrc⟩
    refine List.mem_map.mpr ⟨(m, t), List.mem_filter.mpr ⟨hin, ?_⟩, rfl⟩
    simp only [Bool.and_eq_true, decide_eq_true_eq]
    exact ⟨hge, hrc⟩

/-! ## Janitor loop lemmas -/

theorem janitorLoop_deleted_eq_filter (deleteOk : String → Bool) :
    ∀ (ms : List String) (s : State),
      (janitorLoop deleteOk s ms).2 = ms.filter (fun m => deleteOk m) := by
  intro ms
  induction ms with
  | nil => intro s; rfl
  | cons x rest ih =>
    intro s
    by_cases hx : deleteOk x = true
    · simp [janitorLoop, hx, List.filter_cons, ih]
    · simp [janitorLoop, hx, List.filter_cons, ih]

theorem janitorLoop_refcounts (deleteOk : String → Bool) :
    ∀ (ms : List String) (s : State),
      (janitorLoop deleteOk s ms).1.model_refcounts = s.model_refcounts := by
  intro ms
  induction ms with
  | nil => intro s; rfl
  | cons x rest ih =>
    intro s
    by_cases hx : deleteOk x = true
    · simp [janitorLoop, hx, ih, clear_lease_refcounts]
    · simp [janitorLoop, hx, ih]

theorem janitorLoop_active_tokens (deleteOk : String → Bool) :
    ∀ (ms : List String) (s : State),
      (janitorLoop deleteOk s ms).1.active_tokens = s.active_tokens := by
  intro ms
  induction ms with
  | nil => intro s; rfl
  | cons x rest ih =>
    intro s
    by_cases hx : deleteOk x = true
    · simp [janitorLoop, hx, ih, clear_lease_active_tokens]
    · simp [janitorLoop, hx, ih]

theorem janitorLoop_proxy_pid (deleteOk : String → Bool) :
    ∀ (ms : List String) (s : State),
      (janitorLoop deleteOk s ms).1.proxy_pid = s.proxy_pid := by
  intro ms
  induction ms with
  | nil => intro s; rfl
  | cons x rest ih =>
    intro s
    by_cases hx : deleteOk x = true
    · simp [janitorLoop, hx, ih, clear_lease_proxy_pid]
    · simp [janitorLoop, hx, ih]

theorem janitorLoop_last_janitor_run (deleteOk : String → Bool) :
    ∀ (ms : List String) (s : State),
      (janitorLoop deleteOk s ms).1.last_janitor_run = s.last_janitor_run := by
  intro ms
  induction ms with
  | nil => intro s; rfl
  | cons x rest ih =>
    intro s
    by_cases hx : deleteOk x = true
    · simp [janitorLoop, hx, ih, clear_lease_last_janitor_run]
    · simp [janitorLoop, hx, ih]

/-- A lease survives the deletion loop exactly when the model was not
successfully deleted in it. -/
theorem janitorLoop_leases (deleteOk : String → Bool) :
    ∀ (ms : List String) (s : State) (m : String),
      (janitorLoop deleteOk s ms).1.model_leases.get? m =
        if m ∈ ms ∧ deleteOk m = true then none
        else s.model_leases.get? m := by
  intro ms
  induction ms with
  | nil =>
    intro s m
    simp [janitorLoop]
  | cons x rest ih =>
    intro s m
    by_cases hx : deleteOk x = true
    · simp only [janitorLoop, hx, if_true]
      rw [ih]
      by_cases hm : m ∈ rest ∧ deleteOk m = true
      · simp [hm, List.mem_cons, hm.1, hm.2]
      · simp only [hm, if_false]
        by_cases hxm : x = m
        · subst hxm
          rw [clear_lease_leases_self]
          simp [hx]
        · rw [clear_lease_leases_ne s x m hxm]
          have : ¬ (m ∈ x :: rest ∧ deleteOk m = true) := by
            rintro ⟨hmem, hdel⟩
            rcases List.mem_cons.mp hmem with h | h
            · exact hxm h.symm
            · exact hm ⟨h, hdel⟩
          simp only [List.mem_cons] at this
          simp [this]
    · simp only [janitorLoop, hx, Bool.false_eq_true, if_false]
      rw [ih]
      by_cases hm : m ∈ rest ∧ deleteOk m = true
      · simp [List.mem_cons, hm.1, hm.2]
      · simp only [hm, if_false]
        have : ¬ (m ∈ x :: rest ∧ deleteOk m = true) := by
          rintro ⟨hmem, hdel⟩
          rcases List.mem_cons.mp hmem with h | h
          · subst h; exact hx hdel
          · exact hm ⟨h, hdel⟩
        simp only [List.mem_cons] at this
        simp [this]

/-- When the sweep is not rate-limited it stamps `last_janitor_run := now`. -/
theorem cmd_janitor_last_run (s : State) (now : Int) (force : Bool)
    (deleteOk : String → Bool)
    (h : ¬ (¬ force ∧ now - s.last_janitor_run < 60)) :
    (cmd_janitor s now force deleteOk).state.last_janitor_run = now := by
  simp only [cmd_janitor]
  rw [if_neg h]
  split
  · rfl
  · simp [janitorLoop_last_janitor_run]

/-- Incrementing a duplicate-free model list raises each listed model's
refcount by exactly one. -/
theorem increment_models_getD_of_nodup (ms : List String) :
    ∀ (s : State), ms.Nodup → ∀ m ∈ ms,
      (increment_models s ms).model_refcounts.getD m 0 =
        s.model_refcounts.getD m 0 + 1 := by
  induction ms with
  | nil => intro s _ m hm; cases hm
  | cons x rest ih =>
    intro s hnd m hm
    have hfold : increment_models s (x :: rest) = increment_models (incStep s x) rest := rfl
    rw [hfold]
    rcases List.mem_cons.mp hm with hmx | hmr
    · subst hmx
      have hx : m ∉ rest := (List.nodup_cons.mp hnd).1
      unfold Dict.getD
      rw [increment_models_refcounts_not_mem rest _ _ hx, incStep_refcounts_self]
      simp [Dict.getD]
    · have hnd' := (List.nodup_cons.mp hnd).2
      have hxm : x ≠ m := fun h => (List.nodup_cons.mp hnd).1 (h ▸ hmr)
      rw [ih (incStep s x) hnd' m hmr]
      unfold Dict.getD
      rw [incStep_refcounts_ne s x m hxm]

/-! ## Claims -/

/-- C1: for every finite sequence of `increment_models` / `decrement_models`
(and `clear_lease`) calls applied to the initially empty state, every entry of
`model_refcounts` is at least 1 — counts are never negative and no entry is
kept at zero — and a model is a key of `model_leases` exactly when its
refcount is absent/zero and a decrement that brought (or left) its count at
zero has occurred and has not yet been cleared by a later increment or by
`clear_lease` (the `pending` flag of the spec-side view `viewOps`).  Because
the sequence of calls is universally quantified (and each intermediate point
of a call's loop is the final state of a shorter sequence), this holds at all
times. -/
theorem claim_C1 (ops : List Op) (m : String) :
    (∀ c : Int, (runOps ops).model_refcounts.get? m = some c → 1 ≤ c) ∧
    (((runOps ops).model_leases.get? m).isSome = true ↔
      ((runOps ops).model_refcounts.getD m 0 = 0 ∧
        (viewOps ops m).pending = true)) := by
  obtain ⟨h1, h2⟩ := Rel_runOps ops m
  refine ⟨?_, ?_⟩
  · intro c hc
    rw [h1] at hc
    by_cases h0 : (viewOps ops m).count = 0
    · rw [if_pos h0] at hc; cases hc
    · rw [if_neg h0] at hc
      injection hc with hc
      have hpos : 1 ≤ (viewOps ops m).count := Nat.one_le_iff_ne_zero.mpr h0
      omega
  · rw [h2]
    constructor
    · intro hp
      have hc0 := viewOps_pending ops m hp
      refine ⟨?_, hp⟩
      unfold Dict.getD
      rw [h1, hc0]
      simp
    · rintro ⟨_, hp⟩
      exact hp

theorem claim_C1_witness :
    (∀ c : Int,
      (runOps [Op.inc ["m"], Op.dec ["m"] 0 900]).model_refcounts.get? "m" =
        some c → 1 ≤ c) ∧
    (((runOps [Op.inc ["m"], Op.dec ["m"] 0 900]).model_leases.get?
        "m").isSome = true ↔
      ((runOps [Op.inc ["m"], Op.dec ["m"] 0 900]).model_refcounts.getD "m"
          0 = 0 ∧
        (viewOps [Op.inc ["m"], Op.dec ["m"] 0 900] "m").pending = true)) :=
  claim_C1 [Op.inc ["m"], Op.dec ["m"] 0 900] "m"

/-- C2 (counterexample): decrementing a model with no refcount entry is NOT a
no-op — on the empty state it creates a lease for the model, so the state
changes. -/
theorem claim_C2_counterexample :
    decrement_models State.empty ["m"] 0 900 ≠ State.empty := by
  decide

/-- C2 (amended): for every state and model with no entry in
`model_refcounts`, `decrement_models(s, [m], lease_delay)` leaves the
refcounts untouched — no entry is created and no count goes negative — and
leaves `active_tokens`, `proxy_pid` and `last_janitor_run` unchanged, but sets
(or refreshes) a lease for the model expiring at `now + lease_delay`. -/
theorem claim_C2_amended (s : State) (m : String) (now delay : Int)
    (h : s.model_refcounts.get? m = none) :
    decrement_models s [m] now delay =
      { s with model_leases := s.model_leases.insert m (now + delay) } := by
  have hfold : decrement_models s [m] now delay = decStep (now + delay) s m := rfl
  rw [hfold, decStep_absent _ h]

theorem claim_C2_witness :
    State.empty.model_refcounts.get? "m" = none ∧
    decrement_models State.empty ["m"] 0 900 =
      { State.empty with
        model_leases := State.empty.model_leases.insert "m" (0 + 900) } :=
  ⟨by decide, claim_C2_amended State.empty "m" 0 900 (by decide)⟩

/-- C3: after `increment_models(s, [m])` the model `m` is not a key of
`model_leases`; consequently a janitor sweep run on the resulting state (at
any time) never selects `m` for deletion.  Since `s` is arbitrary this covers
in particular every state in which a decrement had dropped `m` to zero and set
a lease: re-entry cancels the lease. -/
theorem claim_C3 (s : State) (m : String) (now : Int) :
    (increment_models s [m]).model_leases.get? m = none ∧
    m ∉ get_expired_leases (increment_models s [m]) now := by
  have hl : (increment_models s [m]).model_leases.get? m = none := by
    have hfold : increment_models s [m] = incStep s m := rfl
    rw [hfold, incStep_leases_self]
  refine ⟨hl, ?_⟩
  intro hm
  obtain ⟨t, hmem, _, _⟩ := mem_get_expired_leases.mp hm
  have hsome := Dict.get?_isSome_of_mem hmem
  rw [hl] at hsome
  simp at hsome

theorem claim_C3_witness :
    (increment_models State.empty ["m"]).model_leases.get? "m" = none ∧
    "m" ∉ get_expired_leases (increment_models State.empty ["m"]) 1000 :=
  claim_C3 State.empty "m" 1000

/-- C4 (counterexample): the claim's consequence "two non-forced sweeps within
60 seconds of each other leave the state after the second call identical to
the state after the first" fails when the FIRST call is itself rate-limited:
with `last_janitor_run = 0` and an expired lease, a sweep at `t1 = 59` is a
no-op, but a second sweep at `t2 = 70` (only 11 seconds later) runs, stamps
`last_janitor_run` and deletes the model. -/
theorem claim_C4_counterexample :
    ((70 : Int) - 59 < 60) ∧
    (cmd_janitor
        (cmd_janitor ({ model_leases := [("m", 10)] } : State) 59 false
          (fun _ => true)).state
        70 false (fun _ => true)).state ≠
      (cmd_janitor ({ model_leases := [("m", 10)] } : State) 59 false
        (fun _ => true)).state := by
  decide

/-- C4 (amended): a non-forced sweep invoked while
`now - last_janitor_run < 60` returns without attempting any deletion and
without mutating any part of the state (and does not rewrite the state file);
hence when a first non-forced sweep actually runs (is not itself
rate-limited), a second non-forced sweep within 60 seconds of it leaves the
state after the second call identical to the state after the first. -/
theorem claim_C4_amended (s : State) (now t1 t2 : Int)
    (del del' : String → Bool) :
    (now - s.last_janitor_run < 60 →
      cmd_janitor s now false del = ⟨s, [], 0, false⟩) ∧
    (¬ (t1 - s.last_janitor_run < 60) → t2 - t1 < 60 →
      cmd_janitor (cmd_janitor s t1 false del).state t2 false del' =
        ⟨(cmd_janitor s t1 false del).state, [], 0, false⟩) := by
  have hrate : ∀ (s' : State) (n : Int) (dl : String → Bool),
      n - s'.last_janitor_run < 60 →
        cmd_janitor s' n false dl = ⟨s', [], 0, false⟩ := by
    intro s' n dl hn
    have hcond : (¬ (false : Bool) = true) ∧ n - s'.last_janitor_run < 60 :=
      ⟨by simp, hn⟩
    unfold cmd_janitor
    rw [if_pos hcond]
  refine ⟨fun h => hrate s now del h, fun hrun hlt => ?_⟩
  have hlast : (cmd_janitor s t1 false del).state.last_janitor_run = t1 :=
    cmd_janitor_last_run s t1 false del (fun hc => hrun hc.2)
  exact hrate _ t2 del' (by rw [hlast]; exact hlt)

theorem claim_C4_witness :
    (cmd_janitor ({ model_leases := [("m", 10)] } : State) 59 false
        (fun _ => true) =
      ⟨({ model_leases := [("m", 10)] } : State), [], 0, false⟩) ∧
    (cmd_janitor
        (cmd_janitor ({ model_leases := [("m", 10)] } : State) 70 false
          (fun _ => true)).state
        80 false (fun _ => true) =
      ⟨(cmd_janitor ({ model_leases := [("m", 10)] } : State) 70 false
          (fun _ => true)).state, [], 0, false⟩) :=
  ⟨(claim_C4_amended { model_leases := [("m", 10)] } 59 59 80
      (fun _ => true) (fun _ => true)).1 (by decide),
   (claim_C4_amended { model_leases := [("m", 10)] } 59 70 80
      (fun _ => true) (fun _ => true)).2 (by decide) (by decide)⟩

/-- C5: the set of models a janitor sweep selects for deletion is exactly
those with a lease entry whose expiration has passed and whose refcount
(defaulting to 0 when absent) is zero; and every model the sweep deletes was
so selected — a model with an unexpired lease, or whose refcount became
nonzero after the lease was set, is never selected nor deleted. -/
theorem claim_C5 (s : State) (now : Int) (m : String) (force : Bool)
    (deleteOk : String → Bool) (h : Dict.WF s.model_leases) :
    (m ∈ get_expired_leases s now ↔
      ∃ t, s.model_leases.get? m = some t ∧ now ≥ t ∧
        s.model_refcounts.getD m 0 = 0) ∧
    (∀ m', m' ∈ (cmd_janitor s now force deleteOk).deleted →
      m' ∈ get_expired_leases s now) := by
  refine ⟨?_, ?_⟩
  · rw [mem_get_expired_leases]
    constructor
    · rintro ⟨t, hmem, hge, hrc⟩
      exact ⟨t, Dict.get?_eq_some_of_mem_of_WF h hmem, hge, hrc⟩
    · rintro ⟨t, hget, hge, hrc⟩
      exact ⟨t, Dict.mem_of_get?_eq_some hget, hge, hrc⟩
  · intro m' hm'
    simp only [cmd_janitor] at hm'
    split at hm'
    · simp at hm'
    · split at hm'
      · simp at hm'
      · rw [janitorLoop_deleted_eq_filter] at hm'
        exact (List.mem_filter.mp hm').1

theorem claim_C5_witness :
    ("a" ∈ get_expired_leases ({ model_leases := [("a", 3)] } : State) 5 ↔
      ∃ t, ({ model_leases := [("a", 3)] } : State).model_leases.get? "a" =
          some t ∧ (5 : Int) ≥ t ∧
        ({ model_leases := [("a", 3)] } : State).model_refcounts.getD "a" 0 = 0) ∧
    (∀ m', m' ∈ (cmd_janitor ({ model_leases := [("a", 3)] } : State) 5 true
        (fun _ => false)).deleted →
      m' ∈ get_expired_leases ({ model_leases := [("a", 3)] } : State) 5) :=
  claim_C5 { model_leases := [("a", 3)] } 5 "a" true (fun _ => false) (by decide)

/-- C6: when a sweep actually runs, the models it reports deleted are exactly
the expired ones whose registry delete call succeeded (a per-model failure
does not stop processing of the rest); each expired model's lease entry is
cleared when its delete succeeded and kept intact when it failed; and the
command exits 0 regardless. -/
theorem claim_C6 (s : State) (now : Int) (force : Bool)
    (deleteOk : String → Bool)
    (hrun : force = true ∨ ¬ (now - s.last_janitor_run < 60)) :
    (cmd_janitor s now force deleteOk).exitCode = 0 ∧
    (cmd_janitor s now force deleteOk).deleted =
      (get_expired_leases s now).filter (fun m => deleteOk m) ∧
    ∀ m ∈ get_expired_leases s now,
      (deleteOk m = true →
        (cmd_janitor s now force deleteOk).state.model_leases.get? m = none) ∧
      (deleteOk m = false →
        (cmd_janitor s now force deleteOk).state.model_leases.get? m =
          s.model_leases.get? m) := by
  have hcond : ¬ (¬ force ∧ now - s.last_janitor_run < 60) := by
    rcases hrun with h | h
    · rintro ⟨hf, _⟩; rw [h] at hf; exact hf rfl
    · rintro ⟨_, hc⟩; exact h hc
  simp only [cmd_janitor]
  rw [if_neg hcond]
  by_cases hexp :
      get_expired_leases { s with last_janitor_run := now } now = []
  · rw [if_pos hexp]
    have hexp' : get_expired_leases s now = [] := hexp
    refine ⟨rfl, ?_, ?_⟩
    · rw [hexp']; rfl
    · intro m hm
      rw [hexp'] at hm
      simp at hm
  · rw [if_neg hexp]
    refine ⟨rfl, ?_, ?_⟩
    · exact janitorLoop_deleted_eq_filter deleteOk _ _
    · intro m hm
      have hm' : m ∈ get_expired_leases { s with last_janitor_run := now } now := hm
      constructor
      · intro hdel
        rw [janitorLoop_leases, if_pos ⟨hm', hdel⟩]
      · intro hdel
        rw [janitorLoop_leases, if_neg]
        rintro ⟨_, hx⟩
        rw [hdel] at hx
        cases hx

theorem claim_C6_witness :
    (cmd_janitor ({ model_leases := [("a", 3), ("b", 4)] } : State) 100 false
        (fun x => x = "b")).exitCode = 0 ∧
    (cmd_janitor ({ model_leases := [("a", 3), ("b", 4)] } : State) 100 false
        (fun x => x = "b")).deleted =
      (get_expired_leases ({ model_leases := [("a", 3), ("b", 4)] } : State)
        100).filter (fun m => (fun x => decide (x = "b")) m) ∧
    ∀ m ∈ get_expired_leases ({ model_leases := [("a", 3), ("b", 4)] } : State)
        100,
      ((fun x => decide (x = "b")) m = true →
        (cmd_janitor ({ model_leases := [("a", 3), ("b", 4)] } : State) 100
            false (fun x => x = "b")).state.model_leases.get? m = none) ∧
      ((fun x => decide (x = "b")) m = false →
        (cmd_janitor ({ model_leases := [("a", 3), ("b", 4)] } : State) 100
            false (fun x => x = "b")).state.model_leases.get? m =
          ({ model_leases := [("a", 3), ("b", 4)] } : State).model_leases.get?
            m) :=
  claim_C6 { model_leases := [("a", 3), ("b", 4)] } 100 false
    (fun x => x = "b") (by decide)

/-- C7: when the profile name does not resolve, `cmd_enter` exits 1 and
performs no state mutation at all — no token added, no refcount incremented,
no lease touched, and the state file is not written. -/
theorem claim_C7 (resolve : String → Option Profile) (s : State)
    (token profile_name directory : String) (now : Int)
    (h : resolve profile_name = none) :
    cmd_enter resolve s token profile_name directory now = ⟨1, false, s⟩ := by
  unfold cmd_enter
  rw [h]

theorem claim_C7_witness :
    cmd_enter (fun _ => none) State.empty "tok" "p" "/d" 0 =
      ⟨1, false, State.empty⟩ :=
  claim_C7 (fun _ => none) State.empty "tok" "p" "/d" 0 rfl

/-- C8: `cmd_leave` is idempotent and total — it always exits 0; an absent
token is a successful no-op leaving the state untouched (and the state file
unwritten); calling leave twice in a row yields the same end-state as calling
it once; and when the token's recorded profile no longer resolves, no models
are decremented but the token is still removed. -/
theorem claim_C8 (resolve : String → Option Profile) (s : State)
    (token : String) (now delay now2 delay2 : Int) :
    (cmd_leave resolve s token now delay).exitCode = 0 ∧
    (get_token s token = none →
      cmd_leave resolve s token now delay = ⟨0, false, s⟩) ∧
    (cmd_leave resolve (cmd_leave resolve s token now delay).state token
        now2 delay2).state =
      (cmd_leave resolve s token now delay).state ∧
    (∀ info, get_token s token = some info → resolve info.profile = none →
      cmd_leave resolve s token now delay = ⟨0, true, remove_token s token⟩) := by
  rcases htok : get_token s token with _ | info
  · have h1 : cmd_leave resolve s token now delay = ⟨0, false, s⟩ := by
      simp only [cmd_leave, htok]
    refine ⟨by rw [h1], fun _ => h1, ?_, ?_⟩
    · rw [h1]
      show (cmd_leave resolve s token now2 delay2).state = s
      simp only [cmd_leave, htok]
    · intro info hsome
      exact Option.noConfusion hsome
  · rcases hres : resolve info.profile with _ | prof
    · have h1 : cmd_leave resolve s token now delay =
          ⟨0, true, remove_token s token⟩ := by
        simp only [cmd_leave, htok, hres]
      refine ⟨by rw [h1], ?_, ?_, ?_⟩
      · intro hn
        exact Option.noConfusion hn
      · rw [h1]
        show (cmd_leave resolve (remove_token s token) token now2 delay2).state =
          remove_token s token
        have habs : get_token (remove_token s token) token = none := by
          unfold get_token remove_token
          exact Dict.get?_erase_self _ _
        simp only [cmd_leave, habs]
      · intro info' hs _
        have hinfo : info = info' := by injection hs
        subst hinfo
        exact h1
    · have h1 : cmd_leave resolve s token now delay =
          ⟨0, true,
            remove_token (decrement_models s prof.model_names now delay)
              token⟩ := by
        simp only [cmd_leave, htok, hres]
      refine ⟨by rw [h1], ?_, ?_, ?_⟩
      · intro hn
        exact Option.noConfusion hn
      · rw [h1]
        show (cmd_leave resolve
            (remove_token (decrement_models s prof.model_names now delay)
              token) token now2 delay2).state = _
        have habs : get_token
            (remove_token (decrement_models s prof.model_names now delay)
              token) token = none := by
          unfold get_token remove_token
          exact Dict.get?_erase_self _ _
        simp only [cmd_leave, habs]
      · intro info' hs hr
        injection hs with hs
        subst hs
        rw [hres] at hr
        exact Option.noConfusion hr

theorem claim_C8_witness :
    (cmd_leave (fun _ => none) State.empty "t" 0 900).exitCode = 0 ∧
    cmd_leave (fun _ => none) State.empty "t" 0 900 =
      ⟨0, false, State.empty⟩ ∧
    (cmd_leave (fun _ => none)
        (cmd_leave (fun _ => none) State.empty "t" 0 900).state "t" 1
        900).state =
      (cmd_leave (fun _ => none) State.empty "t" 0 900).state ∧
    cmd_leave (fun _ => none) (add_token State.empty "t" "p" "/d" 0) "t" 0
        900 =
      ⟨0, true, remove_token (add_token State.empty "t" "p" "/d" 0) "t"⟩ :=
  ⟨(claim_C8 (fun _ => none) State.empty "t" 0 900 1 900).1,
   (claim_C8 (fun _ => none) State.empty "t" 0 900 1 900).2.1 (by decide),
   (claim_C8 (fun _ => none) State.empty "t" 0 900 1 900).2.2.1,
   (claim_C8 (fun _ => none) (add_token State.empty "t" "p" "/d" 0) "t" 0 900
      1 900).2.2.2 ⟨"p", 0, "/d"⟩ (by decide) rfl⟩

/-- C9: a token already present that enters again with a different profile has
its recorded association replaced in place (last-write-wins: the token map
keeps its size and well-formedness, no stacking), the previous profile's
models are NOT decremented (every model outside the new profile's list keeps
its exact refcount entry), and the new profile's models are each incremented
once. -/
theorem claim_C9 (resolve : String → Option Profile) (s : State)
    (token profile_name directory : String) (now : Int)
    (oldInfo : TokenInfo) (prof : Profile)
    (hold : get_token s token = some oldInfo)
    (hres : resolve profile_name = some prof) :
    get_token (cmd_enter resolve s token profile_name directory now).state
        token = some ⟨profile_name, now, directory⟩ ∧
    (cmd_enter resolve s token profile_name directory
        now).state.active_tokens.length = s.active_tokens.length ∧
    (Dict.WF s.active_tokens →
      Dict.WF (cmd_enter resolve s token profile_name directory
        now).state.active_tokens) ∧
    (∀ m, m ∉ prof.model_names →
      (cmd_enter resolve s token profile_name directory
          now).state.model_refcounts.get? m = s.model_refcounts.get? m) ∧
    (prof.model_names.Nodup → ∀ m ∈ prof.model_names,
      (cmd_enter resolve s token profile_name directory
          now).state.model_refcounts.getD m 0 =
        s.model_refcounts.getD m 0 + 1) := by
  have hstate : (cmd_enter resolve s token profile_name directory now).state =
      increment_models (add_token s token profile_name directory now)
        prof.model_names := by
    unfold cmd_enter
    rw [hres]
  have htoks : (cmd_enter resolve s token profile_name directory
      now).state.active_tokens =
      s.active_tokens.insert token ⟨profile_name, now, directory⟩ := by
    rw [hstate, increment_models_active_tokens]
    rfl
  refine ⟨?_, ?_, ?_, ?_, ?_⟩
  · unfold get_token
    rw [htoks, Dict.get?_insert_self]
  · rw [htoks]
    apply Dict.length_insert_of_mem
    unfold get_token at hold
    rw [hold]
    rfl
  · intro hwf
    rw [htoks]
    exact Dict.WF_insert hwf _ _
  · intro m hm
    rw [hstate, increment_models_refcounts_not_mem _ _ _ hm]
    rfl
  · intro hnd m hm
    rw [hstate, increment_models_getD_of_nodup _ _ hnd m hm]
    rfl

theorem claim_C9_witness :
    get_token (cmd_enter (fun _ => some ⟨["m1"]⟩)
        (add_token State.empty "t" "old" "/o" 0) "t" "new" "/n" 7).state "t" =
      some ⟨"new", 7, "/n"⟩ ∧
    (cmd_enter (fun _ => some ⟨["m1"]⟩)
        (add_token State.empty "t" "old" "/o" 0) "t" "new" "/n"
        7).state.active_tokens.length =
      (add_token State.empty "t" "old" "/o" 0).active_tokens.length ∧
    (Dict.WF (add_token State.empty "t" "old" "/o" 0).active_tokens →
      Dict.WF (cmd_enter (fun _ => some ⟨["m1"]⟩)
        (add_token State.empty "t" "old" "/o" 0) "t" "new" "/n"
        7).state.active_tokens) ∧
    (∀ m, m ∉ (⟨["m1"]⟩ : Profile).model_names →
      (cmd_enter (fun _ => some ⟨["m1"]⟩)
          (add_token State.empty "t" "old" "/o" 0) "t" "new" "/n"
          7).state.model_refcounts.get? m =
        (add_token State.empty "t" "old" "/o" 0).model_refcounts.get? m) ∧
    ((⟨["m1"]⟩ : Profile).model_names.Nodup →
      ∀ m ∈ (⟨["m1"]⟩ : Profile).model_names,
        (cmd_enter (fun _ => some ⟨["m1"]⟩)
            (add_token State.empty "t" "old" "/o" 0) "t" "new" "/n"
            7).state.model_refcounts.getD m 0 =
          (add_token State.empty "t" "old" "/o" 0).model_refcounts.getD m 0 +
            1) :=
  claim_C9 (fun _ => some ⟨["m1"]⟩) (add_token State.empty "t" "old" "/o" 0)
    "t" "new" "/n" 7 ⟨"old", 0, "/o"⟩ ⟨["m1"]⟩ (by decide) rfl

/-- C10: `increment_models` and `decrement_models` only affect the models in
their argument list — every other model keeps its exact refcount and lease
entries, and `active_tokens`, `proxy_pid`, `last_janitor_run` are untouched by
both — and any lease a single `decrement_models` call writes carries the one
timestamp `now + lease_delay` computed before its loop. -/
theorem claim_C10 (s : State) (ms : List String) (now delay : Int)
    (m : String) (h : m ∉ ms) :
    (increment_models s ms).model_refcounts.get? m =
      s.model_refcounts.get? m ∧
    (increment_models s ms).model_leases.get? m = s.model_leases.get? m ∧
    (decrement_models s ms now delay).model_refcounts.get? m =
      s.model_refcounts.get? m ∧
    (decrement_models s ms now delay).model_leases.get? m =
      s.model_leases.get? m ∧
    (increment_models s ms).active_tokens = s.active_tokens ∧
    (increment_models s ms).proxy_pid = s.proxy_pid ∧
    (increment_models s ms).last_janitor_run = s.last_janitor_run ∧
    (decrement_models s ms now delay).active_tokens = s.active_tokens ∧
    (decrement_models s ms now delay).proxy_pid = s.proxy_pid ∧
    (decrement_models s ms now delay).last_janitor_run =
      s.last_janitor_run ∧
    (∀ m', (decrement_models s ms now delay).model_leases.get? m' ≠
        s.model_leases.get? m' →
      (decrement_models s ms now delay).model_leases.get? m' =
        some (now + delay)) :=
  ⟨increment_models_refcounts_not_mem ms s m h,
   increment_models_leases_not_mem ms s m h,
   decrement_models_refcounts_not_mem ms now delay s m h,
   decrement_models_leases_not_mem ms now delay s m h,
   increment_models_active_tokens ms s,
   increment_models_proxy_pid ms s,
   increment_models_last_janitor_run ms s,
   decrement_models_active_tokens ms now delay s,
   decrement_models_proxy_pid ms now delay s,
   decrement_models_last_janitor_run ms now delay s,
   fun m' hne =>
     (decrement_models_leases_cases ms now delay s m').resolve_left hne⟩

theorem claim_C10_witness :
    (increment_models State.empty ["a"]).model_refcounts.get? "b" =
      State.empty.model_refcounts.get? "b" ∧
    (increment_models State.empty ["a"]).model_leases.get? "b" =
      State.empty.model_leases.get? "b" ∧
    (decrement_models State.empty ["a"] 0 900).model_refcounts.get? "b" =
      State.empty.model_refcounts.get? "b" ∧
    (decrement_models State.empty ["a"] 0 900).model_leases.get? "b" =
      State.empty.model_leases.get? "b" ∧
    (increment_models State.empty ["a"]).active_tokens =
      State.empty.active_tokens ∧
    (increment_models State.empty ["a"]).proxy_pid = State.empty.proxy_pid ∧
    (increment_models State.empty ["a"]).last_janitor_run =
      State.empty.last_janitor_run ∧
    (decrement_models State.empty ["a"] 0 900).active_tokens =
      State.empty.active_tokens ∧
    (decrement_models State.empty ["a"] 0 900).proxy_pid =
      State.empty.proxy_pid ∧
    (decrement_models State.empty ["a"] 0 900).last_janitor_run =
      State.empty.last_janitor_run ∧
    (∀ m', (decrement_models State.empty ["a"] 0 900).model_leases.get? m' ≠
        State.empty.model_leases.get? m' →
      (decrement_models State.empty ["a"] 0 900).model_leases.get? m' =
        some (0 + 900)) :=
  claim_C10 State.empty ["a"] 0 900 "b" (by decide)

end RunClaude
